import Mathlib

/-!
Verification of the staging/commit pipeline of the hat-backup repository.

The development shallowly embeds the relevant Rust modules:
 * `src/hat/unique_priority_queue.rs` — the unique priority queue (UPQ);
 * `src/hat/blob_index.rs` — the blob index actor over the `blob_index` table;
 * `src/hat/hat.rs` — the retry helper `try_a_few_times_then_fail`.

Rust panics (`fail!`, `unreachable!`, `expect`, `assert!`, SQL errors via
`exec_or_die`) are embedded as `Option`-valued operations returning `none`;
a `some` result is the state after a successful call.
-/

set_option linter.unusedSectionVars false

namespace Hat

/-! ## Ordered collection and hash map models

The UPQ stores its priority map in an `OrderedCollection` (module
`ordered_collection`, whose implementation is not part of the four source
files) and its key map in a Rust `HashMap`.
-/

section AssocList

variable {P A K : Type} [LinearOrder P] [DecidableEq K]

/-- Modelled from the spec: `OrderedCollection` (module `ordered_collection`,
not in src/) is an ordered map from priorities to values, "sorted ascending".
We represent it as an association list kept strictly sorted by key;
`ocFind` is its `find`. -/
def ocFind (l : List (P × A)) (p : P) : Option A :=
  match l with
  | [] => none
  | (q, b) :: rest => if p = q then some b else ocFind rest p

/-- Modelled from the spec: `OrderedCollection.insert` places the binding at
its sorted position, replacing any existing binding of the same key. -/
def ocInsert (p : P) (a : A) : List (P × A) → List (P × A)
  | [] => [(p, a)]
  | (q, b) :: rest =>
    if p < q then (p, a) :: (q, b) :: rest
    else if p = q then (p, a) :: rest
    else (q, b) :: ocInsert p a rest

/-- Modelled from the spec: `OrderedCollection.update_value` rebinds a key to
the image of its current lookup under the caller's closure.  The closure may
hit `unreachable!`, signalled here by `none`. -/
def ocUpdateValue (l : List (P × A)) (p : P) (f : Option A → Option A) :
    Option (List (P × A)) :=
  (f (ocFind l p)).map (fun a => ocInsert p a l)

/-- Modelled from the spec: `OrderedCollection.pop_min_when` removes and
returns the minimum binding when the supplied predicate accepts it. -/
def ocPopMinWhen (f : P → A → Bool) (l : List (P × A)) :
    Option ((P × A) × List (P × A)) :=
  match l with
  | [] => none
  | (q, b) :: rest => if f q b then some ((q, b), rest) else none

/-- Rust `HashMap::find`, on an association-list model of the map. -/
def hmFind (l : List (K × A)) (k : K) : Option A :=
  match l with
  | [] => none
  | (r, a) :: rest => if k = r then some a else hmFind rest k

/-- Rust `HashMap::pop`/`remove`: drop the binding of a key. -/
def hmErase (l : List (K × A)) (k : K) : List (K × A) :=
  l.filter (fun e => decide (e.1 ≠ k))

/-- Rust `HashMap::insert`: bind a key, replacing any previous binding. -/
def hmInsert (l : List (K × A)) (k : K) (a : A) : List (K × A) :=
  (k, a) :: hmErase l k

end AssocList

/-! ## Unique priority queue (src/hat/unique_priority_queue.rs) -/

/-- Entry status, `enum Status<K>` of unique_priority_queue.rs. -/
inductive Status (K : Type) where
  | Pending (k : K)
  | Ready (k : K)
deriving DecidableEq, Repr

/-- The key carried inside either status constructor. -/
def Status.key {K : Type} : Status K → K
  | .Pending k => k
  | .Ready k => k

/-- The queue state: `priority` is the ordered collection from priorities to
`(Status<K>, Option<V>)` pairs, `key_to_priority` the hash map from keys to
priorities. -/
structure UniquePriorityQueue (P K V : Type) where
  priority : List (P × Status K × Option V)
  key_to_priority : List (K × P)
deriving DecidableEq, Repr

namespace UniquePriorityQueue

variable {P K V : Type} [LinearOrder P] [DecidableEq K]

/-- `UniquePriorityQueue::new`. -/
def new : UniquePriorityQueue P K V := ⟨[], []⟩

/-- `reserve_priority`: the `Bool` is `true` for `Ok(())`, `false` for
`Err(())`; the queue component is the state after the call. -/
def reserve_priority (q : UniquePriorityQueue P K V) (p : P) (k : K) :
    Bool × UniquePriorityQueue P K V :=
  if (ocFind q.priority p).isSome || (hmFind q.key_to_priority k).isSome then
    (false, q)
  else
    (true, { priority := ocInsert p (Status.Pending k, none) q.priority,
             key_to_priority := hmInsert q.key_to_priority k p })

/-- `find_key`. -/
def find_key (q : UniquePriorityQueue P K V) (k : K) : Option P :=
  hmFind q.key_to_priority k

/-- `put_value`: `none` when the `expect` on the key lookup or the
`unreachable!` in the update closure fires. -/
def put_value (q : UniquePriorityQueue P K V) (k : K) (v : V) :
    Option (UniquePriorityQueue P K V) :=
  match hmFind q.key_to_priority k with
  | none => none
  | some p =>
    (ocUpdateValue q.priority p (fun o =>
        match o with
        | some (st, none) => some (st, some v)
        | _ => none)).map
      (fun l => { q with priority := l })

/-- `update_value`: `none` when the `expect` or the `unreachable!` fires. -/
def update_value (q : UniquePriorityQueue P K V) (k : K) (f : V → V) :
    Option (UniquePriorityQueue P K V) :=
  match hmFind q.key_to_priority k with
  | none => none
  | some p =>
    (ocUpdateValue q.priority p (fun o =>
        match o with
        | some (st, some v) => some (st, some (f v))
        | _ => none)).map
      (fun l => { q with priority := l })

/-- `set_ready`: `none` when the `unreachable!` fires (priority absent, or
the entry is not `Pending`). -/
def set_ready (q : UniquePriorityQueue P K V) (p : P) :
    Option (UniquePriorityQueue P K V) :=
  (ocUpdateValue q.priority p (fun o =>
      match o with
      | some (Status.Pending k, vo) => some (Status.Ready k, vo)
      | _ => none)).map
    (fun l => { q with priority := l })

/-- The predicate of `pop_min_if_complete`: "we are ready and have a value". -/
def entryComplete (a : Status K × Option V) : Bool :=
  match a with
  | (Status.Ready _, some _) => true
  | _ => false

/-- `pop_min_if_complete`: `none` means no entry was popped and the state is
unchanged; `some ((p, k, v), q₂)` returns the popped triple and the state
after removing it from both maps. -/
def pop_min_if_complete (q : UniquePriorityQueue P K V) :
    Option ((P × K × V) × UniquePriorityQueue P K V) :=
  match ocPopMinWhen (fun _ a => entryComplete a) q.priority with
  | none => none
  | some ((p, st, vo), rest) =>
    match st, vo with
    | Status.Ready k, some v =>
      some ((p, k, v),
            { priority := rest,
              key_to_priority := hmErase q.key_to_priority k })
    | _, _ => none

/-- One client-visible operation on the queue.  `update`'s closure argument is
embedded as a Lean function. -/
inductive Op (P K V : Type) where
  | reserve (p : P) (k : K)
  | put (k : K) (v : V)
  | update (k : K) (f : V → V)
  | setReady (p : P)
  | pop

/-- Apply one operation.  A precondition violation (a Rust panic, or a
`reserve_priority` that returns `Err`) yields `none`, so `some` runs are
exactly the precondition-respecting traces. -/
def applyOp (q : UniquePriorityQueue P K V) : Op P K V →
    Option (UniquePriorityQueue P K V)
  | .reserve p k =>
    let r := reserve_priority q p k
    if r.1 then some r.2 else none
  | .put k v => put_value q k v
  | .update k f => update_value q k f
  | .setReady p => set_ready q p
  | .pop =>
    some (match pop_min_if_complete q with
          | none => q
          | some (_, q2) => q2)

/-- Run a list of operations from a starting state. -/
def runOps (q : UniquePriorityQueue P K V) :
    List (Op P K V) → Option (UniquePriorityQueue P K V)
  | [] => some q
  | o :: rest => (applyOp q o).bind (fun q2 => runOps q2 rest)

/-- The output triple of a complete entry. -/
def entryOut (e : P × Status K × Option V) : Option (P × K × V) :=
  match e with
  | (p, Status.Ready k, some v) => some (p, k, v)
  | _ => none

/-- Repeatedly pop until `pop_min_if_complete` returns `none`, collecting the
popped triples.  Fuelled by the queue size; each successful pop removes the
head of `priority`, so `q.priority.length` is enough fuel. -/
def drainFuel : Nat → UniquePriorityQueue P K V → List (P × K × V)
  | 0, _ => []
  | fuel + 1, q =>
    match pop_min_if_complete q with
    | none => []
    | some (x, q2) => x :: drainFuel fuel q2

/-- A full drain of the queue. -/
def drain (q : UniquePriorityQueue P K V) : List (P × K × V) :=
  drainFuel q.priority.length q

/-- The priority map is strictly sorted ascending by priority (the defining
property of the ordered collection). -/
def PriSorted (q : UniquePriorityQueue P K V) : Prop :=
  List.Pairwise (fun e f => e.1 < f.1) q.priority

/-- The two properties the specification claims as the queue's invariants:
both maps have the same number of entries, and every binding `(k, p)` of the
key map points to a priority entry whose status carries exactly `k`. -/
def ClaimedInv (q : UniquePriorityQueue P K V) : Prop :=
  q.key_to_priority.length = q.priority.length ∧
  ∀ e ∈ q.key_to_priority,
    ∃ st vo, ocFind q.priority e.2 = some (st, vo) ∧ Status.key st = e.1

/-- Full internal well-formedness: sortedness, key-map key uniqueness, equal
sizes, and the two cross-map correspondences. -/
def StrongInv (q : UniquePriorityQueue P K V) : Prop :=
  PriSorted q ∧
  List.Pairwise (fun e f => e.1 ≠ f.1) q.key_to_priority ∧
  q.key_to_priority.length = q.priority.length ∧
  (∀ e ∈ q.key_to_priority,
    ∃ st vo, ocFind q.priority e.2 = some (st, vo) ∧ Status.key st = e.1) ∧
  (∀ e ∈ q.priority, hmFind q.key_to_priority (Status.key e.2.1) = some e.1)

/-- Priority `p` is occupied by an entry carrying key `k`. -/
def HasKeyAt (q : UniquePriorityQueue P K V) (p : P) (k : K) : Prop :=
  ∃ a, (p, a) ∈ q.priority ∧ Status.key a.1 = k

end UniquePriorityQueue

/-- A sample queue: the state after a successful `reserve_priority 1 2`. -/
def sampleReserved : UniquePriorityQueue Nat Nat Nat :=
  ⟨[(1, (Status.Pending 2, none))], [(2, 1)]⟩

/-- A sample queue whose single entry is `Ready` but still without a value
(the state after `reserve_priority 1 5` then `set_ready 1`). -/
def sampleReadyNoValue : UniquePriorityQueue Nat Nat Nat :=
  ⟨[(1, (Status.Ready 5, none))], [(5, 1)]⟩

/-- A sample queue with a complete minimum entry and a pending second one. -/
def sampleReadyValue : UniquePriorityQueue Nat Nat Nat :=
  ⟨[(1, (Status.Ready 5, some 7)), (2, (Status.Pending 6, none))],
   [(5, 1), (6, 2)]⟩

/-- A sample operation sequence that reserves two entries out of priority
order and completes both. -/
def drainOps : List (UniquePriorityQueue.Op Nat Nat Nat) :=
  [UniquePriorityQueue.Op.reserve 2 7, UniquePriorityQueue.Op.reserve 1 5,
   UniquePriorityQueue.Op.put 5 10, UniquePriorityQueue.Op.put 7 20,
   UniquePriorityQueue.Op.setReady 1, UniquePriorityQueue.Op.setReady 2]

/-- The queue state reached by `drainOps`. -/
def drainQ : UniquePriorityQueue Nat Nat Nat :=
  ⟨[(1, (Status.Ready 5, some 10)), (2, (Status.Ready 7, some 20))],
   [(5, 1), (7, 2)]⟩

/-! ## Blob index (src/hat/blob_index.rs)

The durable table `blob_index(id INTEGER PRIMARY KEY, name BLOB UNIQUE,
tag INT)` is embedded as a list of `(id, name, tag)` rows; `INSERT` appends
(aborting on a primary-key or unique-name conflict, as `exec_or_die` would),
`UPDATE ... WHERE id` maps over the rows. -/

/-- A blob descriptor, `struct BlobDesc`. -/
structure BlobDesc where
  name : List Nat
  id : Int
deriving DecidableEq, Repr

/-- One row of the `blob_index` table: `(id, name, tag)`. -/
abbrev BlobRow := Int × List Nat × Int

/-- 2^64, the modulus of the source's 64-bit integer arithmetic. -/
def i64Mod : Int := 18446744073709551616

/-- 2^63, the magnitude of the smallest `i64`. -/
def i64Half : Int := 9223372036854775808

/-- Wrapping `i64` arithmetic: reduce an integer into the signed 64-bit
range `[-2^63, 2^63)`, as the source's `i64` additions do on overflow. -/
def wrap64 (x : Int) : Int := (x + i64Half) % i64Mod - i64Half

/-- The blob index actor state.  `rng`/`rngPos` model the external
random-bytes source as an entropy stream and a cursor into it. -/
structure BlobIndex where
  db : List BlobRow
  next_id : Int
  reserved : List (List Nat × BlobDesc)
  rng : Nat → Nat
  rngPos : Nat

namespace BlobIndex

/-- Modelled from the spec: the random-bytes source (`sodiumoxide`'s
`randombytes`, an external collaborator) returns the requested number of
random bytes; we draw successive bytes of the entropy stream. -/
def randombytes (bi : BlobIndex) (n : Nat) : List Nat × BlobIndex :=
  ((List.range n).map (fun i => bi.rng (bi.rngPos + i) % 256),
   { bi with rngPos := bi.rngPos + n })

/-- The value `SELECT MAX(id) FROM blob_index` reads: the maximum id, with
the `NULL` of an empty table read back as `0` by `get_int`. -/
def maxIdRead (db : List BlobRow) : Int :=
  match db.map (fun r => r.1) with
  | [] => 0
  | x :: xs => xs.foldl max x

/-- `refresh_next_id`: `self.next_id = (id as i64) + 1`, a wrapping `i64`
addition. -/
def refresh_next_id (bi : BlobIndex) : BlobIndex :=
  { bi with next_id := wrap64 (maxIdRead bi.db + 1) }

/-- `BlobIndex::new` followed by `initialize`: the table rows are the given
persisted contents, the id counter is seeded from `MAX(id)`. -/
def new (db : List BlobRow) (rng : Nat → Nat) : BlobIndex :=
  refresh_next_id
    { db := db, next_id := -1, reserved := [], rng := rng, rngPos := 0 }

/-- `fn next_id(&mut self)`: return the counter and increment it; the
increment is the wrapping `i64` addition `self.next_id += 1`. -/
def next_id_alloc (bi : BlobIndex) : Int × BlobIndex :=
  (bi.next_id, { bi with next_id := wrap64 (bi.next_id + 1) })

/-- `new_blob_desc`: a fresh 24-byte random name and the next id. -/
def new_blob_desc (bi : BlobIndex) : BlobDesc × BlobIndex :=
  let rb := randombytes bi 24
  let ni := next_id_alloc rb.2
  ({ name := rb.1, id := ni.1 }, ni.2)

/-- `reserve`: mint a descriptor and remember it in the in-memory
`reserved` map, keyed by name. -/
def reserve (bi : BlobIndex) : BlobDesc × BlobIndex :=
  let r := new_blob_desc bi
  (r.1, { r.2 with reserved := hmInsert r.2.reserved r.1.name r.1 })

/-- `in_air`: assert the name is reserved, then
`INSERT INTO blob_index (id, name, tag) VALUES (id, name, 1)` and commit.
`none` embeds the failed `assert!` or a constraint violation killing
`exec_or_die`. -/
def in_air (bi : BlobIndex) (blob : BlobDesc) : Option BlobIndex :=
  if (hmFind bi.reserved blob.name).isNone then none
  else if bi.db.any (fun r => decide (r.1 = blob.id)) then none
  else if bi.db.any (fun r => decide (r.2.1 = blob.name)) then none
  else some { bi with db := bi.db ++ [(blob.id, blob.name, 1)] }

/-- `commit_blob`: assert the name is reserved, then
`UPDATE blob_index SET tag=0 WHERE id=blob.id` and commit. -/
def commit_blob (bi : BlobIndex) (blob : BlobDesc) : Option BlobIndex :=
  if (hmFind bi.reserved blob.name).isNone then none
  else some { bi with
              db := bi.db.map (fun r =>
                if r.1 = blob.id then (r.1, r.2.1, 0) else r) }

/-- The actor's message type. -/
inductive Msg where
  | Reserve
  | InAir (d : BlobDesc)
  | CommitDone (d : BlobDesc)

/-- The actor's reply type. -/
inductive Reply where
  | Reserved (d : BlobDesc)
  | CommitOK
deriving DecidableEq, Repr

/-- `MsgHandler::handle`: the reply sent and the state after processing,
`none` when the handler aborts. -/
def handle (bi : BlobIndex) : Msg → Option (Reply × BlobIndex)
  | .Reserve =>
    let r := reserve bi
    some (.Reserved r.1, r.2)
  | .InAir d => (in_air bi d).map (fun bi2 => (.CommitOK, bi2))
  | .CommitDone d => (commit_blob bi d).map (fun bi2 => (.CommitOK, bi2))

/-- Perform `n` consecutive `reserve` calls, collecting the descriptors. -/
def reserveN (bi : BlobIndex) : Nat → List BlobDesc × BlobIndex
  | 0 => ([], bi)
  | n + 1 =>
    let r := reserve bi
    let rest := reserveN r.2 n
    (r.1 :: rest.1, rest.2)

end BlobIndex

/-! ## Retry helper (src/hat/hat.rs) -/

/-- The loop body of `try_a_few_times_then_fail`, from loop counter `i` with
the given fuel: the outcome of the i-th invocation of the closure is `f i`. -/
def tryFrom (f : Nat → Bool) : Nat → Nat → Option Nat
  | _, 0 => none
  | i, fuel + 1 => if f i then some i else tryFrom f (i + 1) fuel

/-- `try_a_few_times_then_fail`: `for i in range(1u, 5) { if f() { return } }
fail!(msg)`.  Returns the index of the succeeding invocation (so the number
of invocations made), or `none` for the `fail!`. -/
def try_a_few_times_then_fail (f : Nat → Bool) : Option Nat :=
  tryFrom f 1 4

/-- A fixed entropy stream for instantiating the blob-index theorems. -/
def rng0 : Nat → Nat := fun _ => 0

/-- A blob index freshly opened over an empty table. -/
def sampleBI : BlobIndex := BlobIndex.new [] rng0

/-- The descriptor handed out by the first `reserve` on the fresh index. -/
def cdesc : BlobDesc := (BlobIndex.reserve sampleBI).1

/-- The index state after that `reserve`. -/
def cbiR : BlobIndex := (BlobIndex.reserve sampleBI).2

/-- The state after `InAir cdesc`. -/
def cbi1 : BlobIndex :=
  { cbiR with db := cbiR.db ++ [(cdesc.id, cdesc.name, 1)] }

/-- The state after `CommitDone cdesc`. -/
def cbi2 : BlobIndex :=
  { cbi1 with
    db := cbi1.db.map (fun r =>
      if r.1 = cdesc.id then (r.1, r.2.1, 0) else r) }

/-- A blob index opened over a table whose maximum persisted id sits one
step below the largest `i64`, so the second reserve overflows the counter. -/
def bi6 : BlobIndex := BlobIndex.new [(i64Half - 2, [], 0)] rng0

/-! ## Lemmas about the ordered-collection and hash-map models -/

section AssocLemmas

variable {P A K : Type} [LinearOrder P] [DecidableEq K]

theorem ocFind_eq_none_iff (l : List (P × A)) (p : P) :
    ocFind l p = none ↔ ∀ e ∈ l, e.1 ≠ p := by
  induction l with
  | nil => simp [ocFind]
  | cons e rest ih =>
    obtain ⟨q, b⟩ := e
    by_cases h : p = q
    · subst h; simp [ocFind]
    · simp only [ocFind, if_neg h, ih, List.mem_cons]
      constructor
      · rintro h2 f (h3 | h3)
        · rw [h3]; exact fun h4 => h (h4.symm)
        · exact h2 f h3
      · intro h2 f h3
        exact h2 f (Or.inr h3)

theorem ocFind_mem {l : List (P × A)} {p : P} {a : A}
    (h : ocFind l p = some a) : (p, a) ∈ l := by
  induction l with
  | nil => simp [ocFind] at h
  | cons e rest ih =>
    obtain ⟨q, b⟩ := e
    by_cases hpq : p = q
    · subst hpq
      simp [ocFind] at h
      subst h
      exact List.mem_cons_self _ _
    · simp only [ocFind, if_neg hpq] at h
      exact List.mem_cons_of_mem _ (ih h)

theorem mem_ocInsert_weak {l : List (P × A)} {p : P} {a : A} {e : P × A}
    (h : e ∈ ocInsert p a l) : e = (p, a) ∨ e ∈ l := by
  induction l with
  | nil => simpa [ocInsert] using h
  | cons f rest ih =>
    obtain ⟨q, b⟩ := f
    by_cases h1 : p < q
    · simp only [ocInsert, if_pos h1, List.mem_cons] at h
      rcases h with h | h | h
      · exact Or.inl h
      · exact Or.inr (List.mem_cons.mpr (Or.inl h))
      · exact Or.inr (List.mem_cons_of_mem _ h)
    · by_cases h2 : p = q
      · simp only [ocInsert, if_neg h1, if_pos h2, List.mem_cons] at h
        rcases h with h | h
        · exact Or.inl h
        · exact Or.inr (List.mem_cons_of_mem _ h)
      · simp only [ocInsert, if_neg h1, if_neg h2, List.mem_cons] at h
        rcases h with h | h
        · exact Or.inr (List.mem_cons.mpr (Or.inl h))
        · rcases ih h with h3 | h3
          · exact Or.inl h3
          · exact Or.inr (List.mem_cons_of_mem _ h3)

theorem pairwise_ocInsert {l : List (P × A)} {p : P} {a : A}
    (h : List.Pairwise (fun e f => e.1 < f.1) l) :
    List.Pairwise (fun e f => e.1 < f.1) (ocInsert p a l) := by
  induction l with
  | nil => simp [ocInsert]
  | cons f rest ih =>
    obtain ⟨q, b⟩ := f
    rw [List.pairwise_cons] at h
    obtain ⟨hq, hrest⟩ := h
    by_cases h1 : p < q
    · simp only [ocInsert, if_pos h1]
      rw [List.pairwise_cons]
      refine ⟨?_, List.pairwise_cons.mpr ⟨hq, hrest⟩⟩
      intro e h2
      rcases List.mem_cons.mp h2 with h3 | h3
      · rw [h3]; exact h1
      · exact lt_trans h1 (hq e h3)
    · by_cases h2 : p = q
      · subst h2
        simp only [ocInsert, if_neg h1, if_pos rfl]
        exact List.pairwise_cons.mpr ⟨hq, hrest⟩
      · have h3 : q < p := by
          rcases lt_trichotomy p q with h4 | h4 | h4
          · exact absurd h4 h1
          · exact absurd h4 h2
          · exact h4
        simp only [ocInsert, if_neg h1, if_neg h2]
        rw [List.pairwise_cons]
        refine ⟨?_, ih hrest⟩
        intro e h4
        rcases mem_ocInsert_weak h4 with h5 | h5
        · rw [h5]; exact h3
        · exact hq e h5

theorem ocFind_ocInsert_self (l : List (P × A)) (p : P) (a : A) :
    ocFind (ocInsert p a l) p = some a := by
  induction l with
  | nil => simp [ocInsert, ocFind]
  | cons e rest ih =>
    obtain ⟨q, b⟩ := e
    by_cases h1 : p < q
    · simp [ocInsert, h1, ocFind]
    · by_cases h2 : p = q
      · simp [ocInsert, h1, h2, ocFind]
      · simp [ocInsert, h1, h2, ocFind, ih]

theorem ocFind_ocInsert_ne (l : List (P × A)) {p r : P} (a : A)
    (h : r ≠ p) : ocFind (ocInsert p a l) r = ocFind l r := by
  induction l with
  | nil => simp [ocInsert, ocFind, h]
  | cons e rest ih =>
    obtain ⟨q, b⟩ := e
    by_cases h1 : p < q
    · simp [ocInsert, h1, ocFind, h]
    · by_cases h2 : p = q
      · subst h2; simp [ocInsert, h1, ocFind, h]
      · simp [ocInsert, h1, h2, ocFind, ih]

theorem length_ocInsert_not_found {l : List (P × A)} {p : P} (a : A)
    (h : ocFind l p = none) :
    (ocInsert p a l).length = l.length + 1 := by
  induction l with
  | nil => simp [ocInsert]
  | cons e rest ih =>
    obtain ⟨q, b⟩ := e
    by_cases h2 : p = q
    · subst h2; simp [ocFind] at h
    · simp only [ocFind, if_neg h2] at h
      by_cases h1 : p < q
      · simp [ocInsert, h1]
      · simp [ocInsert, h1, h2, ih h]

theorem length_ocInsert_found {l : List (P × A)} {p : P} {b : A} (a : A)
    (hs : List.Pairwise (fun e f => e.1 < f.1) l)
    (h : ocFind l p = some b) :
    (ocInsert p a l).length = l.length := by
  induction l with
  | nil => simp [ocFind] at h
  | cons e rest ih =>
    obtain ⟨q, c⟩ := e
    rw [List.pairwise_cons] at hs
    obtain ⟨hq, hrest⟩ := hs
    by_cases h2 : p = q
    · subst h2
      simp [ocInsert, lt_irrefl]
    · simp only [ocFind, if_neg h2] at h
      have h3 : q < p := hq _ (ocFind_mem h)
      have h1 : ¬ p < q := fun h4 => absurd (lt_trans h4 h3) (lt_irrefl p)
      simp [ocInsert, h1, h2, ih hrest h]

theorem mem_ocInsert_not_found {l : List (P × A)} {p : P} {a : A}
    {e : P × A} (h : ocFind l p = none) :
    e ∈ ocInsert p a l ↔ e = (p, a) ∨ e ∈ l := by
  induction l with
  | nil => simp [ocInsert]
  | cons f rest ih =>
    obtain ⟨q, b⟩ := f
    by_cases h2 : p = q
    · subst h2; simp [ocFind] at h
    · simp only [ocFind, if_neg h2] at h
      by_cases h1 : p < q
      · simp only [ocInsert, if_pos h1, List.mem_cons]
      · simp only [ocInsert, if_neg h1, if_neg h2, List.mem_cons, ih h]
        tauto

theorem mem_ocInsert_found {l : List (P × A)} {p : P} {b : A} {a : A}
    {e : P × A}
    (hs : List.Pairwise (fun e f => e.1 < f.1) l)
    (h : ocFind l p = some b) :
    e ∈ ocInsert p a l ↔ e = (p, a) ∨ (e ∈ l ∧ e.1 ≠ p) := by
  induction l with
  | nil => simp [ocFind] at h
  | cons f rest ih =>
    obtain ⟨q, c⟩ := f
    rw [List.pairwise_cons] at hs
    obtain ⟨hq, hrest⟩ := hs
    by_cases h2 : p = q
    · subst h2
      have hnp : ∀ f ∈ rest, f.1 ≠ p := by
        intro f h3 h4
        exact absurd (hq f h3) (by rw [h4]; exact lt_irrefl p)
      have he : ocInsert p a ((p, c) :: rest) = (p, a) :: rest := by
        simp [ocInsert, lt_irrefl]
      rw [he]
      constructor
      · intro h3
        rcases List.mem_cons.mp h3 with h4 | h4
        · exact Or.inl h4
        · exact Or.inr ⟨List.mem_cons_of_mem _ h4, hnp e h4⟩
      · intro h3
        rcases h3 with h3 | ⟨h3, h4⟩
        · rw [h3]; exact List.mem_cons_self _ _
        · rcases List.mem_cons.mp h3 with h5 | h5
          · exact absurd (congrArg Prod.fst h5) h4
          · exact List.mem_cons_of_mem _ h5
    · simp only [ocFind, if_neg h2] at h
      have h3 : q < p := hq _ (ocFind_mem h)
      have h1 : ¬ p < q := fun h4 => absurd (lt_trans h4 h3) (lt_irrefl p)
      have he : ocInsert p a ((q, c) :: rest) = (q, c) :: ocInsert p a rest := by
        simp [ocInsert, h1, h2]
      rw [he]
      constructor
      · intro h4
        rcases List.mem_cons.mp h4 with h5 | h5
        · refine Or.inr ⟨List.mem_cons.mpr (Or.inl h5), ?_⟩
          rw [h5]
          intro h6
          exact absurd (h6 ▸ h3) (lt_irrefl p)
        · rcases (ih hrest h).mp h5 with h6 | ⟨h6, h7⟩
          · exact Or.inl h6
          · exact Or.inr ⟨List.mem_cons_of_mem _ h6, h7⟩
      · intro h4
        rcases h4 with h4 | ⟨h4, h5⟩
        · exact List.mem_cons_of_mem _ ((ih hrest h).mpr (Or.inl h4))
        · rcases List.mem_cons.mp h4 with h6 | h6
          · exact List.mem_cons.mpr (Or.inl h6)
          · exact List.mem_cons_of_mem _ ((ih hrest h).mpr (Or.inr ⟨h6, h5⟩))

theorem mem_iff_ocFind {l : List (P × A)} {p : P} {a : A}
    (hs : List.Pairwise (fun e f => e.1 < f.1) l) :
    (p, a) ∈ l ↔ ocFind l p = some a := by
  induction l with
  | nil => simp [ocFind]
  | cons f rest ih =>
    obtain ⟨q, b⟩ := f
    rw [List.pairwise_cons] at hs
    obtain ⟨hq, hrest⟩ := hs
    by_cases h2 : p = q
    · subst h2
      have he : ocFind ((p, b) :: rest) p = some b := by simp [ocFind]
      rw [he]
      constructor
      · intro h3
        rcases List.mem_cons.mp h3 with h4 | h4
        · rw [((Prod.mk.injEq _ _ _ _).mp h4).2]
        · exact absurd (hq _ h4) (lt_irrefl p)
      · intro h3
        rw [Option.some_inj] at h3
        rw [← h3]
        exact List.mem_cons_self _ _
    · have he : ocFind ((q, b) :: rest) p = ocFind rest p := by
        simp [ocFind, h2]
      rw [he, ← ih hrest]
      constructor
      · intro h3
        rcases List.mem_cons.mp h3 with h4 | h4
        · exact absurd (congrArg Prod.fst h4) h2
        · exact h4
      · exact List.mem_cons_of_mem _

theorem hmFind_eq_none_iff (l : List (K × A)) (k : K) :
    hmFind l k = none ↔ ∀ e ∈ l, e.1 ≠ k := by
  induction l with
  | nil => simp [hmFind]
  | cons e rest ih =>
    obtain ⟨r, a⟩ := e
    by_cases h : k = r
    · subst h; simp [hmFind]
    · simp only [hmFind, if_neg h, ih, List.mem_cons]
      constructor
      · rintro h2 f (h3 | h3)
        · rw [h3]; exact fun h4 => h h4.symm
        · exact h2 f h3
      · intro h2 f h3
        exact h2 f (Or.inr h3)

theorem hmFind_mem {l : List (K × A)} {k : K} {a : A}
    (h : hmFind l k = some a) : (k, a) ∈ l := by
  induction l with
  | nil => simp [hmFind] at h
  | cons e rest ih =>
    obtain ⟨r, b⟩ := e
    by_cases h2 : k = r
    · subst h2
      simp [hmFind] at h
      subst h
      exact List.mem_cons_self _ _
    · simp only [hmFind, if_neg h2] at h
      exact List.mem_cons_of_mem _ (ih h)

theorem mem_hmErase {l : List (K × A)} {k : K} {e : K × A} :
    e ∈ hmErase l k ↔ e ∈ l ∧ e.1 ≠ k := by
  simp [hmErase, List.mem_filter]

theorem hmFind_hmErase_self (l : List (K × A)) (k : K) :
    hmFind (hmErase l k) k = none := by
  rw [hmFind_eq_none_iff]
  intro e h
  exact (mem_hmErase.mp h).2

theorem hmFind_hmErase_ne (l : List (K × A)) {k r : K}
    (h : r ≠ k) : hmFind (hmErase l k) r = hmFind l r := by
  induction l with
  | nil => rfl
  | cons e rest ih =>
    obtain ⟨s, a⟩ := e
    by_cases h2 : s = k
    · subst h2
      have he : hmErase ((s, a) :: rest) s = hmErase rest s := by
        simp [hmErase]
      rw [he, ih]
      simp [hmFind, h]
    · have he : hmErase ((s, a) :: rest) k = (s, a) :: hmErase rest k := by
        simp [hmErase, h2]
      rw [he]
      by_cases h3 : r = s
      · subst h3; simp [hmFind]
      · simp [hmFind, h3, ih]

theorem hmErase_of_not_found {l : List (K × A)} {k : K}
    (h : hmFind l k = none) : hmErase l k = l := by
  rw [hmFind_eq_none_iff] at h
  unfold hmErase
  rw [List.filter_eq_self]
  intro e h2
  simp [h e h2]

theorem length_hmErase_found {l : List (K × A)} {k : K} {a : A}
    (hn : List.Pairwise (fun e f => e.1 ≠ f.1) l)
    (h : hmFind l k = some a) :
    (hmErase l k).length + 1 = l.length := by
  induction l with
  | nil => simp [hmFind] at h
  | cons e rest ih =>
    obtain ⟨r, b⟩ := e
    rw [List.pairwise_cons] at hn
    obtain ⟨hr, hrest⟩ := hn
    by_cases h2 : k = r
    · subst h2
      have h3 : hmFind rest k = none := by
        rw [hmFind_eq_none_iff]
        intro f h4
        exact (hr f h4).symm
      have he : hmErase ((k, b) :: rest) k = hmErase rest k := by
        simp [hmErase]
      rw [he, hmErase_of_not_found h3]
      simp
    · simp only [hmFind, if_neg h2] at h
      have h4 : ¬ r = k := fun h5 => h2 h5.symm
      have he : hmErase ((r, b) :: rest) k = (r, b) :: hmErase rest k := by
        simp [hmErase, h4]
      rw [he]
      simp only [List.length_cons]
      rw [ih hrest h]

theorem pairwise_hmErase {l : List (K × A)} (k : K)
    (hn : List.Pairwise (fun e f => e.1 ≠ f.1) l) :
    List.Pairwise (fun e f => e.1 ≠ f.1) (hmErase l k) :=
  List.Pairwise.sublist (List.filter_sublist l) hn

theorem hmFind_hmInsert_self (l : List (K × A)) (k : K) (a : A) :
    hmFind (hmInsert l k a) k = some a := by
  simp [hmInsert, hmFind]

theorem hmFind_hmInsert_ne (l : List (K × A)) {k r : K} (a : A)
    (h : r ≠ k) : hmFind (hmInsert l k a) r = hmFind l r := by
  simp only [hmInsert, hmFind, if_neg h]
  exact hmFind_hmErase_ne l h

theorem pairwise_hmInsert {l : List (K × A)} (k : K) (a : A)
    (hn : List.Pairwise (fun e f => e.1 ≠ f.1) l) :
    List.Pairwise (fun e f => e.1 ≠ f.1) (hmInsert l k a) := by
  unfold hmInsert
  rw [List.pairwise_cons]
  refine ⟨?_, pairwise_hmErase k hn⟩
  intro e h2
  exact fun h3 => (mem_hmErase.mp h2).2 h3.symm

theorem mem_hmInsert {l : List (K × A)} {k : K} {a : A} {e : K × A} :
    e ∈ hmInsert l k a ↔ e = (k, a) ∨ (e ∈ l ∧ e.1 ≠ k) := by
  simp only [hmInsert, List.mem_cons, mem_hmErase]

theorem mem_iff_hmFind {l : List (K × A)} {k : K} {a : A}
    (hn : List.Pairwise (fun e f => e.1 ≠ f.1) l) :
    (k, a) ∈ l ↔ hmFind l k = some a := by
  induction l with
  | nil => simp [hmFind]
  | cons f rest ih =>
    obtain ⟨r, b⟩ := f
    rw [List.pairwise_cons] at hn
    obtain ⟨hr, hrest⟩ := hn
    by_cases h2 : k = r
    · subst h2
      have he : hmFind ((k, b) :: rest) k = some b := by simp [hmFind]
      rw [he]
      constructor
      · intro h3
        rcases List.mem_cons.mp h3 with h4 | h4
        · rw [((Prod.mk.injEq _ _ _ _).mp h4).2]
        · exact absurd rfl (hr (k, a) h4)
      · intro h3
        rw [Option.some_inj] at h3
        rw [← h3]
        exact List.mem_cons_self _ _
    · have he : hmFind ((r, b) :: rest) k = hmFind rest k := by
        simp [hmFind, h2]
      rw [he, ← ih hrest]
      constructor
      · intro h3
        rcases List.mem_cons.mp h3 with h4 | h4
        · exact absurd (congrArg Prod.fst h4) h2
        · exact h4
      · exact List.mem_cons_of_mem _

end AssocLemmas

/-! ## Unique priority queue: operation-level lemmas -/

section UPQLemmas

open UniquePriorityQueue

variable {P K V : Type} [LinearOrder P] [DecidableEq K]

theorem pop_min_nil (q : UniquePriorityQueue P K V) (h : q.priority = []) :
    pop_min_if_complete q = none := by
  unfold pop_min_if_complete ocPopMinWhen
  rw [h]

theorem pop_min_cons_incomplete (q : UniquePriorityQueue P K V)
    (p : P) (st : Status K) (vo : Option V) (rest : List (P × Status K × Option V))
    (h : q.priority = (p, st, vo) :: rest)
    (hc : entryComplete (st, vo) = false) :
    pop_min_if_complete q = none := by
  unfold pop_min_if_complete ocPopMinWhen
  rw [h]
  simp [hc]

theorem pop_min_cons_complete (q : UniquePriorityQueue P K V)
    (p : P) (k : K) (v : V) (rest : List (P × Status K × Option V))
    (h : q.priority = (p, Status.Ready k, some v) :: rest) :
    pop_min_if_complete q =
      some ((p, k, v), ⟨rest, hmErase q.key_to_priority k⟩) := by
  unfold pop_min_if_complete ocPopMinWhen
  rw [h]
  simp [entryComplete]

theorem pop_eq_some {q : UniquePriorityQueue P K V}
    {x : P × K × V} {q2 : UniquePriorityQueue P K V}
    (h : pop_min_if_complete q = some (x, q2)) :
    ∃ p k v rest, q.priority = (p, Status.Ready k, some v) :: rest ∧
      x = (p, k, v) ∧ q2 = ⟨rest, hmErase q.key_to_priority k⟩ := by
  unfold pop_min_if_complete ocPopMinWhen at h
  rcases hq : q.priority with _ | ⟨⟨p0, st0, vo0⟩, rest⟩
  · rw [hq] at h; simp at h
  · rw [hq] at h
    rcases st0 with k0 | k0
    · simp [entryComplete] at h
    · rcases vo0 with _ | v0
      · simp [entryComplete] at h
      · simp [entryComplete] at h
        exact ⟨p0, k0, v0, rest, rfl, h.1.symm, h.2.symm⟩

theorem put_value_eq_some {q q2 : UniquePriorityQueue P K V} {k : K} {v : V}
    (h : put_value q k v = some q2) :
    ∃ p st, hmFind q.key_to_priority k = some p ∧
      ocFind q.priority p = some (st, none) ∧
      q2 = { q with priority := ocInsert p (st, some v) q.priority } := by
  rcases hk : hmFind q.key_to_priority k with _ | p
  · simp [put_value, hk] at h
  · rcases hf : ocFind q.priority p with _ | ⟨st, vo⟩
    · simp [put_value, hk, ocUpdateValue, hf] at h
    · rcases vo with _ | w
      · simp [put_value, hk, ocUpdateValue, hf] at h
        exact ⟨p, st, rfl, hf, h.symm⟩
      · simp [put_value, hk, ocUpdateValue, hf] at h

theorem update_value_eq_some {q q2 : UniquePriorityQueue P K V} {k : K}
    {f : V → V} (h : update_value q k f = some q2) :
    ∃ p st v, hmFind q.key_to_priority k = some p ∧
      ocFind q.priority p = some (st, some v) ∧
      q2 = { q with priority := ocInsert p (st, some (f v)) q.priority } := by
  rcases hk : hmFind q.key_to_priority k with _ | p
  · simp [update_value, hk] at h
  · rcases hf : ocFind q.priority p with _ | ⟨st, vo⟩
    · simp [update_value, hk, ocUpdateValue, hf] at h
    · rcases vo with _ | w
      · simp [update_value, hk, ocUpdateValue, hf] at h
      · simp [update_value, hk, ocUpdateValue, hf] at h
        exact ⟨p, st, w, rfl, hf, h.symm⟩

theorem set_ready_eq_some {q q2 : UniquePriorityQueue P K V} {p : P}
    (h : set_ready q p = some q2) :
    ∃ k vo, ocFind q.priority p = some (Status.Pending k, vo) ∧
      q2 = { q with priority := ocInsert p (Status.Ready k, vo) q.priority } := by
  rcases hf : ocFind q.priority p with _ | ⟨st, vo⟩
  · simp [set_ready, ocUpdateValue, hf] at h
  · rcases st with k0 | k0
    · simp [set_ready, ocUpdateValue, hf] at h
      exact ⟨k0, vo, rfl, h.symm⟩
    · simp [set_ready, ocUpdateValue, hf] at h

theorem reserve_eq_ok {q : UniquePriorityQueue P K V} {p : P} {k : K}
    (h : (reserve_priority q p k).1 = true) :
    ocFind q.priority p = none ∧ hmFind q.key_to_priority k = none ∧
      (reserve_priority q p k).2 =
        { priority := ocInsert p (Status.Pending k, none) q.priority,
          key_to_priority := hmInsert q.key_to_priority k p } := by
  rcases hf : ocFind q.priority p with _ | a
  · rcases hk : hmFind q.key_to_priority k with _ | b
    · refine ⟨rfl, rfl, ?_⟩
      simp [reserve_priority, hf, hk]
    · exfalso; simp [reserve_priority, hf, hk] at h
  · exfalso; simp [reserve_priority, hf] at h

end UPQLemmas

/-! ## Unique priority queue: invariant preservation -/

section UPQInv

open UniquePriorityQueue

variable {P K V : Type} [LinearOrder P] [DecidableEq K]

theorem ocFind_cons_self (p : P) (a : Status K × Option V)
    (rest : List (P × Status K × Option V)) :
    ocFind ((p, a) :: rest) p = some a := by
  simp [ocFind]

theorem strongInv_new : StrongInv (new : UniquePriorityQueue P K V) := by
  refine ⟨?_, ?_, ?_, ?_, ?_⟩ <;> simp [new, PriSorted]

theorem reserve_fail {q : UniquePriorityQueue P K V} {p : P} {k : K}
    (h : ¬ (reserve_priority q p k).1 = true) :
    (reserve_priority q p k).2 = q := by
  by_cases hc : ((ocFind q.priority p).isSome ||
      (hmFind q.key_to_priority k).isSome) = true
  · simp [reserve_priority, hc]
  · exfalso
    apply h
    simp [reserve_priority, hc]

theorem strongInv_reserve {q : UniquePriorityQueue P K V} (h : StrongInv q)
    (p : P) (k : K) : StrongInv (reserve_priority q p k).2 := by
  by_cases hb : (reserve_priority q p k).1 = true
  · obtain ⟨hfp, hfk, heq⟩ := reserve_eq_ok hb
    rw [heq]
    obtain ⟨hs, hn, hl, hfw, hbw⟩ := h
    refine ⟨pairwise_ocInsert hs, pairwise_hmInsert k p hn, ?_, ?_, ?_⟩
    · show (hmInsert q.key_to_priority k p).length =
        (ocInsert p (Status.Pending k, none) q.priority).length
      rw [length_ocInsert_not_found _ hfp]
      unfold hmInsert
      rw [hmErase_of_not_found hfk]
      simp [hl]
    · intro e he
      rcases mem_hmInsert.mp he with h1 | ⟨h1, h2⟩
      · rw [h1]
        exact ⟨Status.Pending k, none, ocFind_ocInsert_self _ _ _, rfl⟩
      · obtain ⟨st0, vo0, hf0, hk0⟩ := hfw e h1
        have hne : e.2 ≠ p := by
          intro h3
          rw [h3, hfp] at hf0
          exact Option.noConfusion hf0
        refine ⟨st0, vo0, ?_, hk0⟩
        show ocFind (ocInsert p (Status.Pending k, none) q.priority) e.2 =
          some (st0, vo0)
        rw [ocFind_ocInsert_ne _ _ hne]
        exact hf0
    · intro e he
      rcases (mem_ocInsert_not_found hfp).mp he with h1 | h1
      · rw [h1]
        exact hmFind_hmInsert_self _ _ _
      · have hb0 := hbw e h1
        have hne : Status.key e.2.1 ≠ k := by
          intro h3
          rw [h3, hfk] at hb0
          exact Option.noConfusion hb0
        show hmFind (hmInsert q.key_to_priority k p) (Status.key e.2.1) =
          some e.1
        rw [hmFind_hmInsert_ne _ _ hne]
        exact hb0
  · rw [reserve_fail hb]
    exact h

theorem strongInv_replace {q : UniquePriorityQueue P K V} (h : StrongInv q)
    {p : P} {st st2 : Status K} {vo : Option V} (vo2 : Option V)
    (hf : ocFind q.priority p = some (st, vo))
    (hk : Status.key st2 = Status.key st) :
    StrongInv { q with priority := ocInsert p (st2, vo2) q.priority } := by
  obtain ⟨hs, hn, hl, hfw, hbw⟩ := h
  refine ⟨pairwise_ocInsert hs, hn, ?_, ?_, ?_⟩
  · show q.key_to_priority.length = (ocInsert p (st2, vo2) q.priority).length
    rw [length_ocInsert_found _ hs hf]
    exact hl
  · intro e he
    obtain ⟨st0, vo0, hf0, hk0⟩ := hfw e he
    by_cases hp : e.2 = p
    · refine ⟨st2, vo2, ?_, ?_⟩
      · show ocFind (ocInsert p (st2, vo2) q.priority) e.2 = some (st2, vo2)
        rw [hp]
        exact ocFind_ocInsert_self _ _ _
      · rw [hp, hf] at hf0
        have h4 := Option.some_inj.mp hf0
        rw [hk]
        rw [← hk0]
        exact congrArg (fun z => Status.key z.1) h4
    · refine ⟨st0, vo0, ?_, hk0⟩
      show ocFind (ocInsert p (st2, vo2) q.priority) e.2 = some (st0, vo0)
      rw [ocFind_ocInsert_ne _ _ hp]
      exact hf0
  · intro e he
    rcases (mem_ocInsert_found hs hf).mp he with h1 | ⟨h1, h2⟩
    · rw [h1]
      show hmFind q.key_to_priority (Status.key st2) = some p
      rw [hk]
      have h3 := hbw (p, st, vo) (ocFind_mem hf)
      simpa using h3
    · exact hbw e h1

theorem strongInv_pop {q : UniquePriorityQueue P K V}
    {x : P × K × V} {q2 : UniquePriorityQueue P K V} (h : StrongInv q)
    (hp : pop_min_if_complete q = some (x, q2)) : StrongInv q2 := by
  obtain ⟨p, k, v, rest, hpri, hx, hq2⟩ := pop_eq_some hp
  obtain ⟨hs, hn, hl, hfw, hbw⟩ := h
  unfold PriSorted at hs
  rw [hpri, List.pairwise_cons] at hs
  obtain ⟨hmin, hrest⟩ := hs
  have hhead : (p, Status.Ready k, some v) ∈ q.priority := by
    rw [hpri]; exact List.mem_cons_self _ _
  have hfindk : hmFind q.key_to_priority k = some p := by
    have h2 := hbw _ hhead
    simpa using h2
  subst hq2
  refine ⟨hrest, pairwise_hmErase k hn, ?_, ?_, ?_⟩
  · show (hmErase q.key_to_priority k).length = rest.length
    have h1 := length_hmErase_found hn hfindk
    rw [hpri] at hl
    simp only [List.length_cons] at hl
    omega
  · intro e he
    have he2 := mem_hmErase.mp he
    obtain ⟨st0, vo0, hf0, hk0⟩ := hfw e he2.1
    have hne : e.2 ≠ p := by
      intro h3
      rw [h3, hpri, ocFind_cons_self] at hf0
      apply he2.2
      rw [← hk0]
      exact (congrArg (fun z => Status.key z.1)
        (Option.some_inj.mp hf0)).symm
    refine ⟨st0, vo0, ?_, hk0⟩
    rw [hpri] at hf0
    show ocFind rest e.2 = some (st0, vo0)
    simpa [ocFind, hne] using hf0
  · intro e he
    have hmemq : e ∈ q.priority := by
      rw [hpri]; exact List.mem_cons_of_mem _ he
    have hb0 := hbw e hmemq
    have hne : Status.key e.2.1 ≠ k := by
      intro h3
      rw [h3, hfindk] at hb0
      have h4 : e.1 = p := (Option.some_inj.mp hb0).symm
      have h5 := hmin e he
      rw [h4] at h5
      exact lt_irrefl _ h5
    show hmFind (hmErase q.key_to_priority k) (Status.key e.2.1) = some e.1
    rw [hmFind_hmErase_ne _ hne]
    exact hb0

theorem strongInv_applyOp {q q2 : UniquePriorityQueue P K V} {o : Op P K V}
    (h : StrongInv q) (ha : applyOp q o = some q2) : StrongInv q2 := by
  cases o with
  | reserve p k =>
    simp only [applyOp] at ha
    by_cases hb : (reserve_priority q p k).1 = true
    · rw [if_pos hb] at ha
      rw [← Option.some_inj.mp ha]
      exact strongInv_reserve h p k
    · rw [if_neg hb] at ha
      exact Option.noConfusion ha
  | put k v =>
    obtain ⟨p, st, hk, hf, hq⟩ := put_value_eq_some ha
    rw [hq]
    exact strongInv_replace h (some v) hf rfl
  | update k f =>
    obtain ⟨p, st, v, hk, hf, hq⟩ := update_value_eq_some ha
    rw [hq]
    exact strongInv_replace h (some (f v)) hf rfl
  | setReady p =>
    obtain ⟨k, vo, hf, hq⟩ := set_ready_eq_some ha
    rw [hq]
    exact strongInv_replace h vo hf rfl
  | pop =>
    simp only [applyOp] at ha
    rcases hp : pop_min_if_complete q with _ | ⟨x, q3⟩
    · rw [hp] at ha
      rw [← Option.some_inj.mp ha]
      exact h
    · rw [hp] at ha
      rw [← Option.some_inj.mp ha]
      exact strongInv_pop h hp

theorem strongInv_runOps {ops : List (Op P K V)}
    {q q2 : UniquePriorityQueue P K V} (h : StrongInv q)
    (hr : runOps q ops = some q2) : StrongInv q2 := by
  induction ops generalizing q with
  | nil =>
    simp only [runOps, Option.some_inj] at hr
    rw [← hr]
    exact h
  | cons o rest ih =>
    simp only [runOps] at hr
    rcases ha : applyOp q o with _ | q3
    · rw [ha] at hr
      exact Option.noConfusion hr
    · rw [ha] at hr
      simp only [Option.bind] at hr
      exact ih (strongInv_applyOp h ha) hr

end UPQInv

/-! ## Claim theorems: unique priority queue basics -/

section UPQClaims

open UniquePriorityQueue

variable {P K V : Type} [LinearOrder P] [DecidableEq K]

/-- C3: a `reserve_priority` call whose priority or key is already present
returns the error result and leaves both maps exactly as they were; a call
with both free inserts `(Pending k, None)` at `p`, records `k ↦ p` in the key
map, and returns ok. -/
theorem upq_reserve_priority_spec (q : UniquePriorityQueue P K V)
    (p : P) (k : K) :
    (((ocFind q.priority p).isSome ∨ (hmFind q.key_to_priority k).isSome) →
      reserve_priority q p k = (false, q)) ∧
    ((ocFind q.priority p = none ∧ hmFind q.key_to_priority k = none) →
      reserve_priority q p k =
        (true,
         { priority := ocInsert p (Status.Pending k, none) q.priority,
           key_to_priority := hmInsert q.key_to_priority k p })) := by
  constructor
  · intro h
    have hb : ((ocFind q.priority p).isSome ||
        (hmFind q.key_to_priority k).isSome) = true := by
      rcases h with h | h
      · simp [h]
      · simp [h]
    simp [reserve_priority, hb]
  · rintro ⟨h1, h2⟩
    simp [reserve_priority, h1, h2]

/-- Witness for C3: a duplicate-priority call fails and leaves the sample
queue unchanged; a fresh call succeeds with the described state. -/
theorem upq_reserve_priority_spec_witness :
    reserve_priority sampleReserved 1 9 = (false, sampleReserved) ∧
    reserve_priority sampleReserved 2 9 =
      (true,
       { priority := ocInsert 2 (Status.Pending 9, none)
           sampleReserved.priority,
         key_to_priority := hmInsert sampleReserved.key_to_priority 9 2 }) :=
  ⟨(upq_reserve_priority_spec sampleReserved 1 9).1 (Or.inl (by decide)),
   (upq_reserve_priority_spec sampleReserved 2 9).2 ⟨by decide, by decide⟩⟩

/-- C8 counterexample: after `reserve_priority 1 5` then `set_ready 1` the
entry at priority 1 has status `Ready 5` (value still empty); `put_value 5 99`
on that Ready entry does not panic — it succeeds and updates the state. -/
theorem upq_put_value_on_ready_no_panic :
    runOps (new : UniquePriorityQueue Nat Nat Nat)
        [Op.reserve 1 5, Op.setReady 1] = some sampleReadyNoValue ∧
    put_value sampleReadyNoValue 5 99 =
      some ⟨[(1, (Status.Ready 5, some 99))], [(5, 1)]⟩ := by
  constructor
  · decide
  · decide

/-- C8 (amended): `put_value` for an absent key, `put_value` for an entry
whose value is already filled, and `set_ready` for an absent priority are all
precondition violations that panic/abort. -/
theorem upq_panic_spec (q : UniquePriorityQueue P K V) (k : K) (v : V)
    (p : P) (st : Status K) (w : V) :
    (hmFind q.key_to_priority k = none → put_value q k v = none) ∧
    (hmFind q.key_to_priority k = some p →
      ocFind q.priority p = some (st, some w) → put_value q k v = none) ∧
    (ocFind q.priority p = none → set_ready q p = none) := by
  refine ⟨?_, ?_, ?_⟩
  · intro h
    simp [put_value, h]
  · intro h1 h2
    simp [put_value, h1, ocUpdateValue, h2]
  · intro h
    simp [set_ready, ocUpdateValue, h]

/-- Witness for the amended C8 at concrete inputs. -/
theorem upq_panic_spec_witness :
    put_value sampleReadyValue 9 0 = none ∧
    put_value sampleReadyValue 5 0 = none ∧
    set_ready sampleReadyValue 3 = none :=
  ⟨(upq_panic_spec sampleReadyValue 9 0 1 (Status.Pending 0) 0).1 (by decide),
   (upq_panic_spec sampleReadyValue 5 0 1 (Status.Ready 5) 7).2.1
     (by decide) (by decide),
   (upq_panic_spec sampleReadyValue 0 0 3 (Status.Pending 0) 0).2.2
     (by decide)⟩

/-- C4: on a sorted queue, the head of the priority map is the
minimum-priority entry; `pop_min_if_complete` returns none when that entry is
`Pending` or has no value (leaving the state untouched, since a `none`
result carries no new state), and pops `(p, k, v)` — removing the entry from
the priority map and the key from the key map — when it is `Ready` with a
value. -/
theorem upq_pop_min_spec (q : UniquePriorityQueue P K V) (hs : PriSorted q) :
    (∀ p st vo, q.priority.head? = some (p, st, vo) →
      (∀ e ∈ q.priority, p ≤ e.1) ∧
      (((∃ k0, st = Status.Pending k0) ∨ vo = none) →
        pop_min_if_complete q = none)) ∧
    (∀ p k v rest, q.priority = (p, Status.Ready k, some v) :: rest →
      pop_min_if_complete q =
        some ((p, k, v), ⟨rest, hmErase q.key_to_priority k⟩)) := by
  constructor
  · intro p st vo hh
    rcases hq : q.priority with _ | ⟨e0, rest⟩
    · rw [hq] at hh
      exact Option.noConfusion hh
    · rw [hq] at hh
      have he0 : e0 = (p, st, vo) := by simpa using hh
      subst he0
      constructor
      · intro e he
        have hs2 : List.Pairwise (fun e f => e.1 < f.1) q.priority := hs
        rw [hq, List.pairwise_cons] at hs2
        rcases List.mem_cons.mp he with h1 | h1
        · simp [h1]
        · exact le_of_lt (hs2.1 e h1)
      · intro hbad
        apply pop_min_cons_incomplete q p st vo rest hq
        rcases hbad with ⟨k0, hk0⟩ | hvo
        · rw [hk0]
          rcases vo with _ | w <;> rfl
        · rw [hvo]
          rcases st with k0 | k0 <;> rfl
  · intro p k v rest hpri
    exact pop_min_cons_complete q p k v rest hpri

/-- Witness for C4: the sample two-entry queue pops its complete minimum,
and the Ready-but-valueless sample queue pops nothing. -/
theorem upq_pop_min_spec_witness :
    (∀ e ∈ sampleReadyValue.priority, 1 ≤ e.1) ∧
    pop_min_if_complete sampleReadyValue =
      some ((1, 5, 7),
            ⟨[(2, (Status.Pending 6, none))],
             hmErase sampleReadyValue.key_to_priority 5⟩) ∧
    pop_min_if_complete sampleReadyNoValue = none := by
  have hs : PriSorted sampleReadyValue := by
    unfold PriSorted
    decide
  have hs2 : PriSorted sampleReadyNoValue := by
    unfold PriSorted
    decide
  have h1 := upq_pop_min_spec sampleReadyValue hs
  have h2 := upq_pop_min_spec sampleReadyNoValue hs2
  refine ⟨(h1.1 1 (Status.Ready 5) (some 7) rfl).1, ?_, ?_⟩
  · exact h1.2 1 5 7 [(2, (Status.Pending 6, none))] rfl
  · exact (h2.1 1 (Status.Ready 5) none rfl).2 (Or.inr rfl)

/-- C5: after any precondition-respecting sequence of queue operations
(reserve, put_value, update_value, set_ready, pop) starting from the empty
queue, the key map and the priority map hold the same number of entries, and
every key-map binding `(k, p)` points at a priority entry whose status
(Pending or Ready) carries exactly key `k`. -/
theorem upq_invariants_hold (ops : List (Op P K V))
    (q : UniquePriorityQueue P K V) (h : runOps new ops = some q) :
    ClaimedInv q := by
  have h2 := strongInv_runOps strongInv_new h
  exact ⟨h2.2.2.1, h2.2.2.2.1⟩

/-- Witness for C5 on a one-operation run. -/
theorem upq_invariants_hold_witness :
    runOps (new : UniquePriorityQueue Nat Nat Nat) [Op.reserve 1 2] =
      some sampleReserved ∧ ClaimedInv sampleReserved :=
  ⟨by decide, upq_invariants_hold [Op.reserve 1 2] sampleReserved (by decide)⟩

end UPQClaims

/-! ## Drain characterization and the round-trip claim -/

section UPQDrain

open UniquePriorityQueue

variable {P K V : Type} [LinearOrder P] [DecidableEq K]

theorem entryOut_eq_some {e : P × Status K × Option V} {x : P × K × V} :
    entryOut e = some x ↔ e = (x.1, Status.Ready x.2.1, some x.2.2) := by
  obtain ⟨p, st, vo⟩ := e
  rcases st with k | k
  · rcases vo with _ | v <;> simp [entryOut]
  · rcases vo with _ | v
    · simp [entryOut]
    · obtain ⟨xp, xk, xv⟩ := x
      simp [entryOut, Prod.ext_iff]

theorem drainFuel_eq (fuel : Nat) (q : UniquePriorityQueue P K V)
    (hf : q.priority.length ≤ fuel) :
    drainFuel fuel q =
      (q.priority.takeWhile (fun e => entryComplete e.2)).filterMap
        entryOut := by
  induction fuel generalizing q with
  | zero =>
    have h0 : q.priority = [] := List.length_eq_zero.mp (Nat.le_zero.mp hf)
    simp [drainFuel, h0]
  | succ n ih =>
    rcases hq : q.priority with _ | ⟨⟨p0, st0, vo0⟩, rest⟩
    · simp [drainFuel, pop_min_nil q hq]
    · by_cases hc : entryComplete (st0, vo0) = true
      · rcases st0 with k0 | k0
        · simp [entryComplete] at hc
        rcases vo0 with _ | v0
        · simp [entryComplete] at hc
        have hp := pop_min_cons_complete q p0 k0 v0 rest hq
        have hlen :
            (UniquePriorityQueue.mk rest
              (hmErase q.key_to_priority k0) :
                UniquePriorityQueue P K V).priority.length ≤ n := by
          rw [hq] at hf
          simpa using Nat.le_of_succ_le_succ hf
        simp only [drainFuel, hp]
        rw [ih _ hlen]
        simp [List.takeWhile, entryComplete, entryOut]
      · have hp := pop_min_cons_incomplete q p0 st0 vo0 rest hq
          (by simpa using hc)
        simp only [drainFuel, hp]
        simp [List.takeWhile, hc]

theorem drain_eq (q : UniquePriorityQueue P K V) :
    drain q =
      (q.priority.takeWhile (fun e => entryComplete e.2)).filterMap
        entryOut :=
  drainFuel_eq _ q le_rfl

theorem takeWhile_eq_self_of_all {l : List (P × Status K × Option V)}
    (h : ∀ e ∈ l, entryComplete e.2 = true) :
    l.takeWhile (fun e => entryComplete e.2) = l := by
  induction l with
  | nil => rfl
  | cons e rest ih =>
    have h1 : entryComplete e.2 = true := h e (List.mem_cons_self _ _)
    simp only [List.takeWhile, h1]
    rw [ih (fun f hf => h f (List.mem_cons_of_mem _ hf))]

theorem pairwise_filterMap_entryOut {l : List (P × Status K × Option V)}
    (h : List.Pairwise (fun e f => e.1 < f.1) l) :
    List.Pairwise (fun x y => x.1 < y.1) (l.filterMap entryOut) := by
  induction l with
  | nil => simp
  | cons e rest ih =>
    rw [List.pairwise_cons] at h
    obtain ⟨he, hrest⟩ := h
    rcases ho : entryOut e with _ | x
    · simp only [List.filterMap_cons, ho]
      exact ih hrest
    · simp only [List.filterMap_cons, ho]
      rw [List.pairwise_cons]
      refine ⟨?_, ih hrest⟩
      intro y hy
      rcases List.mem_filterMap.mp hy with ⟨f, hf, hfo⟩
      have hx1 : x.1 = e.1 := by
        rw [entryOut_eq_some] at ho
        rw [ho]
      have hy1 : y.1 = f.1 := by
        rw [entryOut_eq_some] at hfo
        rw [hfo]
      rw [hx1, hy1]
      exact he f hf

theorem hasKeyAt_reserve {q : UniquePriorityQueue P K V} {p0 : P} {k0 : K}
    (hb : (reserve_priority q p0 k0).1 = true) (p : P) (k : K) :
    HasKeyAt (reserve_priority q p0 k0).2 p k ↔
      (p = p0 ∧ k = k0) ∨ HasKeyAt q p k := by
  obtain ⟨hfp, hfk, heq⟩ := reserve_eq_ok hb
  rw [heq]
  unfold HasKeyAt
  constructor
  · rintro ⟨a, ha, hk⟩
    rcases (mem_ocInsert_not_found hfp).mp ha with h1 | h1
    · have hp : p = p0 := congrArg Prod.fst h1
      have ha2 : a = (Status.Pending k0, none) := congrArg Prod.snd h1
      left
      refine ⟨hp, ?_⟩
      rw [← hk, ha2]
      rfl
    · right
      exact ⟨a, h1, hk⟩
  · rintro (⟨hp, hk⟩ | ⟨a, ha, hk⟩)
    · refine ⟨(Status.Pending k0, none), ?_, ?_⟩
      · rw [hp]
        exact (mem_ocInsert_not_found hfp).mpr (Or.inl rfl)
      · rw [hk]
        rfl
    · exact ⟨a, (mem_ocInsert_not_found hfp).mpr (Or.inr ha), hk⟩

theorem hasKeyAt_replace {q : UniquePriorityQueue P K V}
    (hinv : StrongInv q) {p0 : P} {st st2 : Status K} {vo : Option V}
    (vo2 : Option V)
    (hf : ocFind q.priority p0 = some (st, vo))
    (hk2 : Status.key st2 = Status.key st) (p : P) (k : K) :
    HasKeyAt { q with priority := ocInsert p0 (st2, vo2) q.priority } p k ↔
      HasKeyAt q p k := by
  have hs := hinv.1
  unfold HasKeyAt
  constructor
  · rintro ⟨a, ha, hk⟩
    rcases (mem_ocInsert_found hs hf).mp ha with h1 | ⟨h1, h2⟩
    · have hp : p = p0 := congrArg Prod.fst h1
      have ha2 : a = (st2, vo2) := congrArg Prod.snd h1
      refine ⟨(st, vo), ?_, ?_⟩
      · rw [hp]
        exact ocFind_mem hf
      · rw [← hk, ha2]
        exact hk2.symm
    · exact ⟨a, h1, hk⟩
  · rintro ⟨a, ha, hk⟩
    by_cases hp : p = p0
    · have h3 : ocFind q.priority p = some a := (mem_iff_ocFind hs).mp ha
      rw [hp, hf] at h3
      have ha2 : a = (st, vo) := (Option.some_inj.mp h3).symm
      refine ⟨(st2, vo2), ?_, ?_⟩
      · rw [hp]
        exact (mem_ocInsert_found hs hf).mpr (Or.inl rfl)
      · rw [← hk, ha2]
        exact hk2
    · exact ⟨a, (mem_ocInsert_found hs hf).mpr (Or.inr ⟨ha, hp⟩), hk⟩

theorem hasKeyAt_runOps {ops : List (Op P K V)}
    {q0 q : UniquePriorityQueue P K V} (hinv : StrongInv q0)
    (hnp : Op.pop ∉ ops) (hr : runOps q0 ops = some q) (p : P) (k : K) :
    HasKeyAt q p k ↔ HasKeyAt q0 p k ∨ Op.reserve p k ∈ ops := by
  induction ops generalizing q0 with
  | nil =>
    simp only [runOps, Option.some_inj] at hr
    subst hr
    simp
  | cons o rest ih =>
    simp only [runOps] at hr
    rcases ha : applyOp q0 o with _ | q1
    · rw [ha] at hr
      exact Option.noConfusion hr
    · rw [ha] at hr
      simp only [Option.bind] at hr
      have hnp2 : Op.pop ∉ rest := fun h2 => hnp (List.mem_cons_of_mem _ h2)
      have hinv1 := strongInv_applyOp hinv ha
      have hiter := ih hinv1 hnp2 hr
      rw [hiter]
      cases o with
      | reserve p0 k0 =>
        simp only [applyOp] at ha
        by_cases hb : (reserve_priority q0 p0 k0).1 = true
        · rw [if_pos hb] at ha
          have hq1 : q1 = (reserve_priority q0 p0 k0).2 :=
            (Option.some_inj.mp ha).symm
          rw [hq1, hasKeyAt_reserve hb p k]
          simp only [List.mem_cons, Op.reserve.injEq]
          tauto
        · rw [if_neg hb] at ha
          exact Option.noConfusion ha
      | put k0 v =>
        obtain ⟨p1, st, hk1, hf1, hq1⟩ := put_value_eq_some ha
        rw [hq1, hasKeyAt_replace hinv (some v) hf1 rfl p k]
        simp only [List.mem_cons]
        have : Op.reserve p k ≠ Op.put k0 v := by simp
        tauto
      | update k0 f =>
        obtain ⟨p1, st, v, hk1, hf1, hq1⟩ := update_value_eq_some ha
        rw [hq1, hasKeyAt_replace hinv (some (f v)) hf1 rfl p k]
        simp only [List.mem_cons]
        have : Op.reserve p k ≠ Op.update k0 f := by simp
        tauto
      | setReady p0 =>
        obtain ⟨k0, vo, hf1, hq1⟩ := set_ready_eq_some ha
        rw [hq1, @hasKeyAt_replace P K V _ _ q0 hinv p0 (Status.Pending k0)
          (Status.Ready k0) vo vo hf1 rfl p k]
        simp only [List.mem_cons]
        have : (Op.reserve p k : Op P K V) ≠ Op.setReady p0 := by simp
        tauto
      | pop =>
        exact absurd (List.mem_cons_self _ _) hnp

/-- C1: for every precondition-respecting sequence of operations from the
empty queue (`runOps` succeeding, no intermediate pop) that leaves every
entry complete, a full drain pops in strictly increasing priority order (so
non-decreasing), pops exactly the completed `(p, k, v)` triples of the final
state, and the priorities/keys present are exactly those of the successful
`reserve` insertions in the sequence. -/
theorem upq_drain_roundtrip (ops : List (Op P K V))
    (q : UniquePriorityQueue P K V) (hr : runOps new ops = some q)
    (hnp : Op.pop ∉ ops)
    (hcomp : ∀ e ∈ q.priority, entryComplete e.2 = true) :
    List.Pairwise (fun x y => x.1 < y.1) (drain q) ∧
    (∀ p k v, (p, k, v) ∈ drain q ↔
      (p, (Status.Ready k, some v)) ∈ q.priority) ∧
    (∀ p k, Op.reserve p k ∈ ops ↔
      ∃ st vo, (p, (st, vo)) ∈ q.priority ∧ Status.key st = k) := by
  have hinv := strongInv_runOps strongInv_new hr
  have hd : drain q = q.priority.filterMap entryOut := by
    rw [drain_eq, takeWhile_eq_self_of_all hcomp]
  refine ⟨?_, ?_, ?_⟩
  · rw [hd]
    exact pairwise_filterMap_entryOut hinv.1
  · intro p k v
    rw [hd, List.mem_filterMap]
    constructor
    · rintro ⟨e, he, heo⟩
      rw [entryOut_eq_some] at heo
      rw [heo] at he
      exact he
    · intro h
      refine ⟨(p, Status.Ready k, some v), h, ?_⟩
      rw [entryOut_eq_some]
  · intro p k
    have h0 : ¬ HasKeyAt (new : UniquePriorityQueue P K V) p k := by
      rintro ⟨a, ha, _⟩
      simp [new] at ha
    constructor
    · intro hm
      have h1 : HasKeyAt q p k :=
        (hasKeyAt_runOps strongInv_new hnp hr p k).mpr (Or.inr hm)
      obtain ⟨⟨st, vo⟩, ha, hk⟩ := h1
      exact ⟨st, vo, ha, hk⟩
    · rintro ⟨st, vo, ha, hk⟩
      have h1 : HasKeyAt q p k := ⟨(st, vo), ha, hk⟩
      rcases (hasKeyAt_runOps strongInv_new hnp hr p k).mp h1 with h2 | h2
      · exact absurd h2 h0
      · exact h2

/-- Witness for C1 on a concrete out-of-order trace of two completed
insertions. -/
theorem upq_drain_roundtrip_witness :
    runOps (new : UniquePriorityQueue Nat Nat Nat) drainOps = some drainQ ∧
    List.Pairwise (fun x y => x.1 < y.1) (drain drainQ) ∧
    ((1, 5, 10) ∈ drain drainQ ↔
      (1, (Status.Ready 5, some 10)) ∈ drainQ.priority) ∧
    (UniquePriorityQueue.Op.reserve 1 5 ∈ drainOps ↔
      ∃ st vo, (1, (st, vo)) ∈ drainQ.priority ∧ Status.key st = 5) := by
  have h := upq_drain_roundtrip drainOps drainQ (by decide)
    (by simp [drainOps]) (by decide)
  exact ⟨by decide, h.1, h.2.1 1 5 10, h.2.2 1 5⟩

end UPQDrain

/-! ## Claim theorems: blob index -/

section BlobClaims

open BlobIndex

theorem wrap64_eq_self {x : Int} (h1 : -i64Half ≤ x) (h2 : x < i64Half) :
    wrap64 x = x := by
  unfold wrap64
  simp only [i64Half, i64Mod] at h1 h2 ⊢
  omega

theorem in_air_eq_some {bi bi2 : BlobIndex} {d : BlobDesc}
    (h : in_air bi d = some bi2) :
    (hmFind bi.reserved d.name).isSome = true ∧
      bi2.db = bi.db ++ [(d.id, d.name, 1)] ∧
      bi2.reserved = bi.reserved ∧ bi2.next_id = bi.next_id := by
  unfold in_air at h
  by_cases h1 : (hmFind bi.reserved d.name).isNone = true
  · rw [if_pos h1] at h
    exact Option.noConfusion h
  · rw [if_neg h1] at h
    by_cases h2 : (bi.db.any (fun r => decide (r.1 = d.id))) = true
    · rw [if_pos h2] at h
      exact Option.noConfusion h
    · rw [if_neg h2] at h
      by_cases h3 : (bi.db.any (fun r => decide (r.2.1 = d.name))) = true
      · rw [if_pos h3] at h
        exact Option.noConfusion h
      · rw [if_neg h3] at h
        have hb := Option.some_inj.mp h
        rw [← hb]
        refine ⟨?_, rfl, rfl, rfl⟩
        rcases hf : hmFind bi.reserved d.name with _ | x
        · rw [hf] at h1
          exact absurd rfl h1
        · rfl

theorem commit_blob_eq_some {bi bi2 : BlobIndex} {d : BlobDesc}
    (h : commit_blob bi d = some bi2) :
    (hmFind bi.reserved d.name).isSome = true ∧
      bi2.db = bi.db.map (fun r =>
        if r.1 = d.id then (r.1, r.2.1, 0) else r) ∧
      bi2.reserved = bi.reserved ∧ bi2.next_id = bi.next_id := by
  unfold commit_blob at h
  by_cases h1 : (hmFind bi.reserved d.name).isNone = true
  · rw [if_pos h1] at h
    exact Option.noConfusion h
  · rw [if_neg h1] at h
    have hb := Option.some_inj.mp h
    rw [← hb]
    refine ⟨?_, rfl, rfl, rfl⟩
    rcases hf : hmFind bi.reserved d.name with _ | x
    · rw [hf] at h1
      exact absurd rfl h1
    · rfl

/-- C2: both `InAir` and `CommitDone` abort unless the descriptor's name is
in the in-memory reserved map; a processed `InAir d` leaves the row
`(d.id, d.name, tag 1)` in the table, and a subsequently processed
`CommitDone d` turns that row's tag to 0 (no tag-1 row for that id and name
survives). -/
theorem blob_commit_protocol (bi : BlobIndex) (d : BlobDesc) :
    (hmFind bi.reserved d.name = none →
      handle bi (Msg.InAir d) = none ∧
      handle bi (Msg.CommitDone d) = none) ∧
    (∀ r1 bi1, handle bi (Msg.InAir d) = some (r1, bi1) →
      r1 = Reply.CommitOK ∧ (d.id, d.name, (1 : Int)) ∈ bi1.db ∧
      ∀ r2 bi2, handle bi1 (Msg.CommitDone d) = some (r2, bi2) →
        r2 = Reply.CommitOK ∧ (d.id, d.name, (0 : Int)) ∈ bi2.db ∧
        (d.id, d.name, (1 : Int)) ∉ bi2.db) := by
  constructor
  · intro h
    constructor
    · simp [handle, in_air, h]
    · simp [handle, commit_blob, h]
  · intro r1 bi1 h1
    have ha : in_air bi d = some bi1 ∧ r1 = Reply.CommitOK := by
      rcases hi : in_air bi d with _ | bi1x
      · simp [handle, hi] at h1
      · simp [handle, hi] at h1
        exact ⟨by rw [h1.2], h1.1.symm⟩
    obtain ⟨ha1, ha2⟩ := ha
    obtain ⟨hres, hdb, hresv, hnid⟩ := in_air_eq_some ha1
    have hrow : (d.id, d.name, (1 : Int)) ∈ bi1.db := by
      rw [hdb]
      exact List.mem_append_right _ (List.mem_cons_self _ _)
    refine ⟨ha2, hrow, ?_⟩
    intro r2 bi2 h2
    have hc : commit_blob bi1 d = some bi2 ∧ r2 = Reply.CommitOK := by
      rcases hi : commit_blob bi1 d with _ | bi2x
      · simp [handle, hi] at h2
      · simp [handle, hi] at h2
        exact ⟨by rw [h2.2], h2.1.symm⟩
    obtain ⟨hc1, hc2⟩ := hc
    obtain ⟨hres2, hdb2, hresv2, hnid2⟩ := commit_blob_eq_some hc1
    refine ⟨hc2, ?_, ?_⟩
    · rw [hdb2]
      refine List.mem_map.mpr ⟨(d.id, d.name, 1), hrow, ?_⟩
      simp
    · rw [hdb2]
      intro hmem
      rcases List.mem_map.mp hmem with ⟨r, hr, hr2⟩
      by_cases hid : r.1 = d.id
      · rw [if_pos hid] at hr2
        have h3 : (0 : Int) = 1 := by
          have h4 := congrArg (fun z => z.2.2) hr2
          simp at h4
        exact absurd h3 (by decide)
      · rw [if_neg hid] at hr2
        exact hid (congrArg (fun z => z.1) hr2)

/-- Witness for C2 on a fresh repository: reserve, then InAir, then
CommitDone, watching the row's tag; plus the abort of both messages on an
unreserved name. -/
theorem blob_commit_protocol_witness :
    handle cbiR (Msg.InAir cdesc) = some (Reply.CommitOK, cbi1) ∧
    (cdesc.id, cdesc.name, (1 : Int)) ∈ cbi1.db ∧
    handle cbi1 (Msg.CommitDone cdesc) = some (Reply.CommitOK, cbi2) ∧
    (cdesc.id, cdesc.name, (0 : Int)) ∈ cbi2.db ∧
    (cdesc.id, cdesc.name, (1 : Int)) ∉ cbi2.db ∧
    hmFind sampleBI.reserved cdesc.name = none ∧
    handle sampleBI (Msg.InAir cdesc) = none := by
  have h := (blob_commit_protocol cbiR cdesc).2 Reply.CommitOK cbi1 rfl
  have h2 := h.2.2 Reply.CommitOK cbi2 rfl
  have h3 := (blob_commit_protocol sampleBI cdesc).1 rfl
  exact ⟨rfl, h.2.1, rfl, h2.2.1, h2.2.2, rfl, h3.1⟩

/-- C9: processing `Reserve` leaves the durable table untouched; its only
effects are incrementing the in-memory id counter (the wrapping `i64`
increment, which is the plain `+ 1` whenever it does not overflow) and
inserting the new descriptor, keyed by its name, into the in-memory
reserved map. -/
theorem blob_reserve_frame (bi : BlobIndex) :
    handle bi Msg.Reserve =
      some (Reply.Reserved (reserve bi).1, (reserve bi).2) ∧
    (reserve bi).2.db = bi.db ∧
    (reserve bi).2.next_id = wrap64 (bi.next_id + 1) ∧
    (-i64Half ≤ bi.next_id → bi.next_id + 1 < i64Half →
      (reserve bi).2.next_id = bi.next_id + 1) ∧
    (reserve bi).2.reserved =
      hmInsert bi.reserved (reserve bi).1.name (reserve bi).1 := by
  refine ⟨rfl, rfl, rfl, ?_, rfl⟩
  intro h1 h2
  show wrap64 (bi.next_id + 1) = bi.next_id + 1
  exact wrap64_eq_self (by omega) h2

/-- Witness for C9: on the fresh sample index the counter does count up by
one. -/
theorem blob_reserve_frame_witness :
    (reserve sampleBI).2.db = sampleBI.db ∧
    (reserve sampleBI).2.next_id = sampleBI.next_id + 1 ∧
    (reserve sampleBI).2.reserved =
      hmInsert sampleBI.reserved (reserve sampleBI).1.name
        (reserve sampleBI).1 := by
  have h := blob_reserve_frame sampleBI
  exact ⟨h.2.1, h.2.2.2.1 (by decide) (by decide), h.2.2.2.2⟩

/-- C10: opening the blob index over an empty table seeds the id counter to
`0 + 1 = 1` (the NULL result of `MAX(id)` reads back as 0), so the first
`Reserve` on a fresh repository hands out id 1. -/
theorem blob_fresh_first_id (rng : Nat → Nat) :
    (BlobIndex.new [] rng).next_id = 1 ∧
    (reserve (BlobIndex.new [] rng)).1.id = 1 :=
  ⟨rfl, rfl⟩

theorem reserveN_ids (n : Nat) (bi : BlobIndex)
    (h1 : -i64Half ≤ bi.next_id)
    (h2 : bi.next_id + (n : Int) < i64Half) :
    (reserveN bi n).1.map BlobDesc.id =
      (List.range n).map (fun i : Nat => bi.next_id + (i : Int)) := by
  induction n generalizing bi with
  | zero => rfl
  | succ m ih =>
    have hw : (reserve bi).2.next_id = bi.next_id + 1 := by
      show wrap64 (bi.next_id + 1) = bi.next_id + 1
      apply wrap64_eq_self
      · omega
      · omega
    show (reserve bi).1.id :: (reserveN (reserve bi).2 m).1.map BlobDesc.id =
      (List.range (m + 1)).map (fun i : Nat => bi.next_id + (i : Int))
    have hh1 : -i64Half ≤ (reserve bi).2.next_id := by
      rw [hw]; omega
    have hh2 : (reserve bi).2.next_id + (m : Int) < i64Half := by
      rw [hw]; push_cast at h2 ⊢; omega
    rw [ih _ hh1 hh2, List.range_succ_eq_map]
    have hhead : (reserve bi).1.id = bi.next_id := rfl
    have hfun : (fun i : Nat => (reserve bi).2.next_id + (i : Int)) =
        ((fun i : Nat => bi.next_id + (i : Int)) ∘ Nat.succ) := by
      funext a
      show (reserve bi).2.next_id + (a : Int) =
        bi.next_id + ((a + 1 : Nat) : Int)
      rw [hw]
      push_cast
      ring
    simp only [List.map_cons, List.map_map, Nat.cast_zero, add_zero,
               hhead, hfun]

theorem reserveN_names (n : Nat) (bi : BlobIndex) :
    ((reserveN bi n).1.all (fun d => d.name.length == 24)) = true := by
  induction n generalizing bi with
  | zero => rfl
  | succ m ih =>
    show ((reserve bi).1 :: (reserveN (reserve bi).2 m).1).all
      (fun d => d.name.length == 24) = true
    rw [List.all_cons]
    have hh : ((reserve bi).1.name.length == 24) = true := rfl
    rw [hh, ih]
    rfl

/-- C6 counterexample: the counter is a wrapping `i64`.  Over a persisted
table whose maximum id is `2^63 - 2` the counter seeds to `2^63 - 1`; the
first reserve hands that id out and wraps the counter, so the second
reserve's id `-2^63` is smaller — the ids of a run of reserves are not
unconditionally strictly increasing. -/
theorem blob_reserve_ids_overflow :
    (reserveN bi6 2).1.map BlobDesc.id = [i64Half - 1, -i64Half] ∧
    ¬ List.Pairwise (fun a b => BlobDesc.id a < BlobDesc.id b)
        (reserveN bi6 2).1 := by
  constructor
  · decide
  · decide

/-- C6 (amended): the id counter is seeded at startup to one more than the
maximum persisted id (by wrapping `i64` arithmetic); every `reserve` hands
out the current counter value and increments it, so — provided the run does
not overflow the `i64` counter — the ids of a run of reserves are
consecutive, strictly increasing and pairwise distinct; every minted name
is 24 bytes long. -/
theorem blob_reserve_ids (bi : BlobIndex) (n : Nat)
    (h1 : -i64Half ≤ bi.next_id)
    (h2 : bi.next_id + (n : Int) < i64Half) :
    ((reserveN bi n).1.map BlobDesc.id =
      (List.range n).map (fun i : Nat => bi.next_id + (i : Int))) ∧
    List.Pairwise (fun a b => BlobDesc.id a < BlobDesc.id b)
      (reserveN bi n).1 ∧
    List.Pairwise (fun a b => BlobDesc.id a ≠ BlobDesc.id b)
      (reserveN bi n).1 ∧
    ((reserveN bi n).1.all (fun d => d.name.length == 24) = true) ∧
    (∀ db rng, (BlobIndex.new db rng).next_id =
      wrap64 (maxIdRead db + 1)) := by
  have hmono : ∀ a b : Nat, a < b →
      bi.next_id + (a : Int) < bi.next_id + (b : Int) := by
    intro a b hab
    have hab2 : (a : Int) < (b : Int) := by exact_mod_cast hab
    omega
  have hids := reserveN_ids n bi h1 h2
  have hpw : List.Pairwise (· < ·) ((reserveN bi n).1.map BlobDesc.id) := by
    rw [hids]
    exact List.Pairwise.map (fun i : Nat => bi.next_id + (i : Int)) hmono
      (List.pairwise_lt_range n)
  have hlt : List.Pairwise (fun a b => BlobDesc.id a < BlobDesc.id b)
      (reserveN bi n).1 := List.pairwise_map.mp hpw
  exact ⟨hids, hlt, hlt.imp (fun h => ne_of_lt h),
         reserveN_names n bi, fun db rng => rfl⟩

/-- Witness for the amended C6: three reserves on the fresh sample index. -/
theorem blob_reserve_ids_witness :
    -i64Half ≤ sampleBI.next_id ∧
    sampleBI.next_id + ((3 : Nat) : Int) < i64Half ∧
    (reserveN sampleBI 3).1.map BlobDesc.id =
      (List.range 3).map (fun i : Nat => sampleBI.next_id + (i : Int)) ∧
    List.Pairwise (fun a b => BlobDesc.id a < BlobDesc.id b)
      (reserveN sampleBI 3).1 := by
  have h := blob_reserve_ids sampleBI 3 (by decide) (by decide)
  exact ⟨by decide, by decide, h.1, h.2.1⟩

end BlobClaims

/-! ## Claim theorem: the retry helper -/

theorem retry_unfold (f : Nat → Bool) :
    try_a_few_times_then_fail f =
      if f 1 then some 1 else if f 2 then some 2
      else if f 3 then some 3 else if f 4 then some 4 else none := rfl

/-- C7: the retry helper makes at most 4 invocations of the supplied
operation, returns as soon as one succeeds (the result counts the
invocations actually made), and fails — aborting the process — exactly when
all 4 invocations fail. -/
theorem retry_spec (f : Nat → Bool) :
    (∀ i, try_a_few_times_then_fail f = some i →
      1 ≤ i ∧ i ≤ 4 ∧ f i = true ∧ ∀ j, 1 ≤ j → j < i → f j = false) ∧
    ((∀ i, 1 ≤ i → i ≤ 4 → f i = false) →
      try_a_few_times_then_fail f = none) ∧
    ((∃ i, 1 ≤ i ∧ i ≤ 4 ∧ f i = true) →
      ∃ i, try_a_few_times_then_fail f = some i) := by
  refine ⟨?_, ?_, ?_⟩
  · intro i h
    rw [retry_unfold] at h
    by_cases h1 : f 1 = true
    · rw [if_pos h1] at h
      have hi := Option.some_inj.mp h
      subst hi
      exact ⟨le_refl 1, by omega, h1, fun j hj1 hj2 => absurd hj2 (by omega)⟩
    · have h1f : f 1 = false := by simpa using h1
      rw [if_neg h1] at h
      by_cases h2 : f 2 = true
      · rw [if_pos h2] at h
        have hi := Option.some_inj.mp h
        subst hi
        refine ⟨by omega, by omega, h2, ?_⟩
        intro j hj1 hj2
        have hj : j = 1 := by omega
        rw [hj]
        exact h1f
      · have h2f : f 2 = false := by simpa using h2
        rw [if_neg h2] at h
        by_cases h3 : f 3 = true
        · rw [if_pos h3] at h
          have hi := Option.some_inj.mp h
          subst hi
          refine ⟨by omega, by omega, h3, ?_⟩
          intro j hj1 hj2
          have hj : j = 1 ∨ j = 2 := by omega
          rcases hj with hj | hj <;> rw [hj] <;> assumption
        · have h3f : f 3 = false := by simpa using h3
          rw [if_neg h3] at h
          by_cases h4 : f 4 = true
          · rw [if_pos h4] at h
            have hi := Option.some_inj.mp h
            subst hi
            refine ⟨by omega, by omega, h4, ?_⟩
            intro j hj1 hj2
            have hj : j = 1 ∨ j = 2 ∨ j = 3 := by omega
            rcases hj with hj | hj | hj <;> rw [hj] <;> assumption
          · rw [if_neg h4] at h
            exact Option.noConfusion h
  · intro hall
    rw [retry_unfold]
    rw [if_neg, if_neg, if_neg, if_neg]
    · simp [hall 4 (by omega) (by omega)]
    · simp [hall 3 (by omega) (by omega)]
    · simp [hall 2 (by omega) (by omega)]
    · simp [hall 1 (by omega) (by omega)]
  · rintro ⟨i, hi1, hi4, hfi⟩
    rw [retry_unfold]
    by_cases h1 : f 1 = true
    · exact ⟨1, by rw [if_pos h1]⟩
    · rw [if_neg h1]
      by_cases h2 : f 2 = true
      · exact ⟨2, by rw [if_pos h2]⟩
      · rw [if_neg h2]
        by_cases h3 : f 3 = true
        · exact ⟨3, by rw [if_pos h3]⟩
        · rw [if_neg h3]
          by_cases h4 : f 4 = true
          · exact ⟨4, by rw [if_pos h4]⟩
          · exfalso
            have hj : i = 1 ∨ i = 2 ∨ i = 3 ∨ i = 4 := by omega
            rcases hj with hj | hj | hj | hj <;> rw [hj] at hfi <;>
              simp_all

/-- Witness for C7: a closure succeeding on its third invocation makes the
helper return after 3 calls; one that always fails exhausts all 4 attempts
and aborts. -/
theorem retry_spec_witness :
    (1 ≤ 3 ∧ 3 ≤ 4 ∧ (fun i => i == 3) 3 = true ∧
      ∀ j, 1 ≤ j → j < 3 → (fun i : Nat => i == 3) j = false) ∧
    try_a_few_times_then_fail (fun _ => false) = none ∧
    ∃ i, try_a_few_times_then_fail (fun i => i == 3) = some i := by
  refine ⟨(retry_spec (fun i => i == 3)).1 3 rfl,
          (retry_spec (fun _ => false)).2.1 (fun i h1 h2 => rfl),
          (retry_spec (fun i => i == 3)).2.2 ⟨3, by omega, by omega, rfl⟩⟩

end Hat
